import Mathlib

/-!
# Verification of the consistent-hash load balancer

Shallow embedding of `src/load-balancer/consistent_hash.py` and of the admin /
routing endpoints of `src/load-balancer/load_balancer.py`, together with proofs
of the specification claims about them.

Modelling conventions:
* Python `None` cells of the ring are `Option.none`; the ring is a
  `List (Option String)` of length `slots`.
* The Python dict `self.servers` (insertion ordered, unique keys) is an
  association list `List (String × List Nat)`; insertion appends, `del`
  removes the (unique) binding.
* SHA-256 hashes are abstracted as arbitrary function parameters (`hv` for
  `_hash_virtual_server`, `hr` for `_hash_request`); the source reduces them
  `% self.slots` and the reduction is kept explicit.  All theorems quantify
  over the hash function, so they hold in particular for the SHA-256 instance.
* The `while` loop of the binary search is written in fuel-passing form; the
  fuel passed at the call site (`keys.length`) dominates the iteration count.
-/

set_option maxHeartbeats 1000000

namespace LoadBalancerProof

/-- A ring cell read, Python `self.ring[slot]` with `None ↦ none`.  In the
source every index is already reduced `% self.slots`; `getD` with default
`none` keeps the read total. -/
def ringCell (ring : List (Option String)) (i : Nat) : Option String :=
  ring.getD i none

/-- State of `ConsistentHash` (consistent_hash.py, lines 7–13): slot count,
virtual-replica count, the ring, the registry `server_id ↦ virtual slot list`,
and the sorted occupied-slot index. -/
structure ConsistentHash where
  slots : Nat
  virtual_servers : Nat
  ring : List (Option String)
  servers : List (String × List Nat)
  sorted_keys : List Nat
deriving DecidableEq

/-- `ConsistentHash.__init__` (lines 8–13): a ring of `slots` empty cells,
empty registry, empty sorted index. -/
def initCH (slots virtual_servers : Nat) : ConsistentHash :=
  { slots := slots
    virtual_servers := virtual_servers
    ring := List.replicate slots none
    servers := []
    sorted_keys := [] }

/-- `_hash_virtual_server` (lines 31–37): the SHA-256 of `f"{id}:{j}"` is
abstracted as the parameter `hv`; the source reduces it `% self.slots`. -/
def hash_virtual_server (hv : String → Nat → Nat) (slots : Nat)
    (server_id : String) (virtual_id : Nat) : Nat :=
  hv server_id virtual_id % slots

/-- Loop of `_find_next_slot` (lines 41–44): probe `(start + i) % slots` for
`remaining` successive values of `i`; `some slot` on the first empty cell. -/
def findNextGo (ring : List (Option String)) (slots start : Nat) :
    Nat → Nat → Option Nat
  | _, 0 => none
  | i, remaining + 1 =>
    let slot := (start + i) % slots
    if ringCell ring slot = none then some slot
    else findNextGo ring slots start (i + 1) remaining

/-- `_find_next_slot` (lines 39–45): linear probing over all `slots` offsets
starting at `start_slot`; `none` when no empty slot exists. -/
def find_next_slot (ring : List (Option String)) (slots start_slot : Nat) :
    Option Nat :=
  findNextGo ring slots start_slot 0 slots

/-- Clearing a list of slots: the rollback loop of `add_server` (lines 69–70)
and the slot-clearing loop of `remove_server` (lines 85–86). -/
def clearSlots (ring : List (Option String)) (slots_list : List Nat) :
    List (Option String) :=
  slots_list.foldl (fun r sl => r.set sl none) ring

/-- `_update_sorted_keys` (lines 47–53): collect the occupied indices of the
ring in increasing order.  The trailing `self.sorted_keys.sort()` of line 53
is the identity because the indices are generated in increasing order. -/
def update_sorted_keys (slots : Nat) (ring : List (Option String)) : List Nat :=
  (List.range slots).filter fun i => (ringCell ring i).isSome

/-- The `for j in range(self.virtual_servers)` loop of `add_server`
(lines 60–74), one constructor per iteration.  On success the final ring and
the accumulated `virtual_slots` are returned; when `_find_next_slot` fails the
rolled-back ring (lines 68–71) is returned in `.error`. -/
def addLoop (hv : String → Nat → Nat) (slots : Nat) (server_id : String) :
    List Nat → List (Option String) → List Nat →
    Except (List (Option String)) (List (Option String) × List Nat)
  | [], ring, virtual_slots => .ok (ring, virtual_slots)
  | j :: js, ring, virtual_slots =>
    let slot0 := hash_virtual_server hv slots server_id j
    if ringCell ring slot0 = none then
      addLoop hv slots server_id js (ring.set slot0 (some server_id))
        (virtual_slots ++ [slot0])
    else
      match find_next_slot ring slots slot0 with
      | none => .error (clearSlots ring virtual_slots)
      | some slot =>
        addLoop hv slots server_id js (ring.set slot (some server_id))
          (virtual_slots ++ [slot])

/-- `add_server` (lines 55–78).  Returns the new state together with the
Python return value (`True` on success, `False` when the id is already
present or when the ring cannot host all replicas). -/
def add_server (hv : String → Nat → Nat) (s : ConsistentHash)
    (server_id : String) : ConsistentHash × Bool :=
  if (List.lookup server_id s.servers).isSome then (s, false)
  else
    match addLoop hv s.slots server_id (List.range s.virtual_servers) s.ring [] with
    | .error ring2 => ({ s with ring := ring2 }, false)
    | .ok (ring2, virtual_slots) =>
      ({ s with
          ring := ring2
          servers := s.servers ++ [(server_id, virtual_slots)]
          sorted_keys := update_sorted_keys s.slots ring2 }, true)

/-- `remove_server` (lines 80–90).  `del self.servers[server_id]` removes the
unique binding of `server_id` (dict keys are unique), modelled as a filter. -/
def remove_server (s : ConsistentHash) (server_id : String) :
    ConsistentHash × Bool :=
  match List.lookup server_id s.servers with
  | none => (s, false)
  | some vslots =>
    let ring2 := clearSlots s.ring vslots
    ({ s with
        ring := ring2
        servers := s.servers.filter fun p => p.1 != server_id
        sorted_keys := update_sorted_keys s.slots ring2 }, true)

/-- The `while left <= right` binary-search loop of `get_server`
(lines 103–112), fuel-passing form.  `r1` is the exclusive upper bound
`right + 1`, so Python's `right = -1` is `r1 = 0`; each iteration shrinks
`r1 - left`, hence fuel `keys.length` (used at the call site) suffices. -/
def bsearchGo (keys : List Nat) (slot : Nat) : Nat → Nat → Nat → Nat → Nat
  | 0, _, _, result_idx => result_idx
  | fuel + 1, left, r1, result_idx =>
    if left < r1 then
      let mid := (left + r1 - 1) / 2
      if slot ≤ keys.getD mid 0 then bsearchGo keys slot fuel left mid mid
      else bsearchGo keys slot fuel (mid + 1) r1 result_idx
    else result_idx

/-- `get_server` (lines 92–118) below the fingerprint computation: the input
`slot` is the request fingerprint `_hash_request(request_id)`, already reduced
into `[0, slots)` (line 29). -/
def lookupSlot (s : ConsistentHash) (slot : Nat) : Option String :=
  if s.servers = [] then none
  else if s.sorted_keys = [] then none
  else
    let n := s.sorted_keys.length
    let idx0 := bsearchGo s.sorted_keys slot n 0 n 0
    let result_idx :=
      if n ≤ idx0 ∨ s.sorted_keys.getD idx0 0 < slot then 0 else idx0
    ringCell s.ring (s.sorted_keys.getD result_idx 0)

/-- `get_server` (lines 92–118) with `_hash_request`'s double SHA-256
abstracted as the parameter `hr`; the reduction `% self.slots` of line 29 is
kept explicit. -/
def get_server (hr : Nat → Nat) (s : ConsistentHash) (request_id : Nat) :
    Option String :=
  lookupSlot s (hr request_id % s.slots)

/-- Number of empty ring cells. -/
def emptyCount (ring : List (Option String)) : Nat :=
  List.countP (fun c => c.isNone) ring

/-- One public mutation of the ring structure. -/
inductive RingOp
  | add (server_id : String)
  | remove (server_id : String)

/-- Apply one mutation, discarding the Boolean result. -/
def stepOp (hv : String → Nat → Nat) (s : ConsistentHash) : RingOp → ConsistentHash
  | .add server_id => (add_server hv s server_id).1
  | .remove server_id => (remove_server s server_id).1

/-- Apply a sequence of mutations. -/
def runOps (hv : String → Nat → Nat) (s : ConsistentHash) (ops : List RingOp) :
    ConsistentHash :=
  ops.foldl (stepOp hv) s

/-- Ring states reachable from `__init__` (with a positive slot count, as in
the source where `slots = 512`) by any sequence of `add_server` /
`remove_server` calls. -/
def Reachable (hv : String → Nat → Nat) (s : ConsistentHash) : Prop :=
  ∃ slots virtual_servers ops,
    0 < slots ∧ s = runOps hv (initCH slots virtual_servers) ops

/-- `sl` is the slot described by the lookup contract for fingerprint `f` over
the occupied-slot list `occ`: the smallest occupied slot `≥ f` or, when no
occupied slot is `≥ f`, the smallest occupied slot overall (wrap-around). -/
def IsCircSucc (occ : List Nat) (f sl : Nat) : Prop :=
  (sl ∈ occ ∧ f ≤ sl ∧ ∀ k ∈ occ, f ≤ k → sl ≤ k) ∨
  ((∀ k ∈ occ, k < f) ∧ sl ∈ occ ∧ ∀ k ∈ occ, sl ≤ k)

/-- The data-structure invariant maintained by `add_server` and
`remove_server` (claims C2/C6): ring length, unique registry keys,
registry/ring consistency, registered ownership of occupied cells, sorted
index consistency, and the per-backend replica count. -/
structure Inv (s : ConsistentHash) : Prop where
  pos : 0 < s.slots
  len : s.ring.length = s.slots
  nodupKeys : (s.servers.map Prod.fst).Nodup
  cons : ∀ server_id vs, (server_id, vs) ∈ s.servers →
    ∀ sl, ringCell s.ring sl = some server_id ↔ sl ∈ vs
  owner : ∀ sl server_id, ringCell s.ring sl = some server_id →
    ∃ vs, (server_id, vs) ∈ s.servers
  sk : s.sorted_keys = update_sorted_keys s.slots s.ring
  replen : ∀ server_id vs, (server_id, vs) ∈ s.servers →
    vs.length = s.virtual_servers ∧ vs.Nodup

/-- A concrete virtual-server hash used by witnesses: every replica hashes to
slot 0, so slots are assigned by pure linear probing. -/
def hv0 : String → Nat → Nat := fun _ _ => 0

example : (add_server hv0 (initCH 8 2) "A").2 = true := by decide
example : (add_server hv0 (initCH 8 2) "A").1.servers = [("A", [0, 1])] := by decide
example :
    (add_server hv0 (add_server hv0 (initCH 8 2) "A").1 "B").1.servers
      = [("A", [0, 1]), ("B", [2, 3])] := by decide
example :
    (add_server hv0 (add_server hv0 (initCH 8 2) "A").1 "B").1.sorted_keys
      = [0, 1, 2, 3] := by decide
example :
    lookupSlot (add_server hv0 (add_server hv0 (initCH 8 2) "A").1 "B").1 2
      = some "B" := by decide
example :
    lookupSlot (add_server hv0 (add_server hv0 (initCH 8 2) "A").1 "B").1 5
      = some "A" := by decide
example :
    lookupSlot (add_server hv0 (initCH 8 2) "A").1 7 = some "A" := by decide

/-! ## Basic lemmas about ring cells and the registry association list -/

theorem ringCell_eq_getElem? (ring : List (Option String)) (i : Nat) :
    ringCell ring i = (ring[i]?).getD none :=
  List.getD_eq_getElem?_getD ring i none

theorem ringCell_out {ring : List (Option String)} {i : Nat}
    (h : ring.length ≤ i) : ringCell ring i = none := by
  rw [ringCell_eq_getElem?, List.getElem?_eq_none h]; rfl

theorem lt_length_of_ringCell_some {ring : List (Option String)} {i : Nat}
    {x : String} (h : ringCell ring i = some x) : i < ring.length := by
  by_contra hlt
  rw [ringCell_out (Nat.le_of_not_lt hlt)] at h
  exact Option.noConfusion h

theorem ringCell_set (ring : List (Option String)) (i j : Nat)
    (a : Option String) :
    ringCell (ring.set i a) j =
      if i = j ∧ i < ring.length then a else ringCell ring j := by
  rw [ringCell_eq_getElem?, ringCell_eq_getElem?, List.getElem?_set]
  by_cases hij : i = j
  · subst hij
    by_cases hlen : i < ring.length
    · simp [hlen]
    · simp only [hlen, and_false, if_true, if_false, if_neg]
      rw [List.getElem?_eq_none (Nat.le_of_not_lt hlen)]
  · simp [hij]

theorem ringCell_replicate (n i : Nat) :
    ringCell (List.replicate n (none : Option String)) i = none := by
  rw [ringCell_eq_getElem?, List.getElem?_replicate]
  by_cases h : i < n <;> simp [h]

theorem clearSlots_cons (a : Nat) (t : List Nat)
    (ring : List (Option String)) :
    clearSlots ring (a :: t) = clearSlots (ring.set a none) t := rfl

theorem clearSlots_length (l : List Nat) (ring : List (Option String)) :
    (clearSlots ring l).length = ring.length := by
  induction l generalizing ring with
  | nil => rfl
  | cons a t ih => rw [clearSlots_cons, ih, List.length_set]

theorem ringCell_clearSlots (l : List Nat) (ring : List (Option String))
    (i : Nat) :
    ringCell (clearSlots ring l) i =
      if i ∈ l then none else ringCell ring i := by
  induction l generalizing ring with
  | nil => simp [clearSlots]
  | cons a t ih =>
    rw [clearSlots_cons, ih, ringCell_set]
    by_cases hit : i ∈ t
    · simp [hit, List.mem_cons]
    · by_cases hia : a = i
      · subst hia
        by_cases hlen : a < ring.length
        · simp [hit, hlen, List.mem_cons]
        · simp only [hlen, and_false, if_false, if_neg, List.mem_cons,
            true_or, if_true, hit, or_false]
          exact ringCell_out (Nat.le_of_not_lt hlen)
      · have hne : ¬i = a := fun h => hia h.symm
        simp [hia, hit, List.mem_cons, hne]

theorem ringCell_ext {r1 r2 : List (Option String)}
    (hlen : r1.length = r2.length)
    (h : ∀ i, ringCell r1 i = ringCell r2 i) : r1 = r2 := by
  apply List.ext_getElem?
  intro n
  by_cases hn : n < r1.length
  · have h1 : r1[n]? = some r1[n] := List.getElem?_eq_getElem hn
    have h2 : r2[n]? = some r2[n] := List.getElem?_eq_getElem (hlen ▸ hn)
    have := h n
    rw [ringCell_eq_getElem?, ringCell_eq_getElem?, h1, h2] at this
    simp only [Option.getD_some] at this
    rw [h1, h2, this]
  · rw [List.getElem?_eq_none (Nat.le_of_not_lt hn),
      List.getElem?_eq_none (hlen ▸ Nat.le_of_not_lt hn)]

/-! ## Lemmas about `List.lookup` on the registry -/

theorem lookup_cons_ite {β : Type} (a k : String) (v : β)
    (t : List (String × β)) :
    List.lookup a ((k, v) :: t) = if a = k then some v else List.lookup a t := by
  rw [List.lookup_cons]
  by_cases h : a = k
  · simp [h]
  · have hb : (a == k) = false := beq_eq_false_iff_ne.mpr h
    simp [hb, h]

theorem lookup_eq_some_mem {β : Type} {a : String} {l : List (String × β)}
    {b : β} (h : List.lookup a l = some b) : (a, b) ∈ l := by
  induction l with
  | nil => exact Option.noConfusion h
  | cons p t ih =>
    obtain ⟨k, v⟩ := p
    rw [lookup_cons_ite] at h
    by_cases hk : a = k
    · rw [if_pos hk] at h
      obtain rfl : v = b := Option.some_injective _ h
      rw [hk]
      exact List.mem_cons_self _ _
    · rw [if_neg hk] at h
      exact List.mem_cons_of_mem _ (ih h)

theorem lookup_eq_none_iff {β : Type} {a : String} {l : List (String × β)} :
    List.lookup a l = none ↔ a ∉ l.map Prod.fst := by
  induction l with
  | nil => simp
  | cons p t ih =>
    obtain ⟨k, v⟩ := p
    rw [lookup_cons_ite]
    by_cases hk : a = k
    · simp [hk]
    · simp [hk, ih]

theorem lookup_isSome_iff {β : Type} {a : String} {l : List (String × β)} :
    (List.lookup a l).isSome = true ↔ a ∈ l.map Prod.fst := by
  constructor
  · intro h
    by_contra hmem
    rw [lookup_eq_none_iff.mpr hmem] at h
    exact Bool.noConfusion h
  · intro h
    cases hl : List.lookup a l with
    | none => exact absurd (lookup_eq_none_iff.mp hl) (not_not_intro h)
    | some b => rfl

theorem lookup_append_of_none {β : Type} {a : String} {l1 l2 : List (String × β)}
    (h : List.lookup a l1 = none) :
    List.lookup a (l1 ++ l2) = List.lookup a l2 := by
  induction l1 with
  | nil => rfl
  | cons p t ih =>
    obtain ⟨k, v⟩ := p
    rw [lookup_cons_ite] at h
    rw [List.cons_append, lookup_cons_ite]
    by_cases hk : a = k
    · rw [if_pos hk] at h; exact Option.noConfusion h
    · rw [if_neg hk] at h ⊢
      exact ih h

theorem lookup_of_mem_nodup {β : Type} {a : String} {b : β}
    {l : List (String × β)} (hn : (l.map Prod.fst).Nodup)
    (h : (a, b) ∈ l) : List.lookup a l = some b := by
  induction l with
  | nil => exact absurd h (List.not_mem_nil _)
  | cons p t ih =>
    obtain ⟨k, v⟩ := p
    rw [List.map_cons, List.nodup_cons] at hn
    rw [lookup_cons_ite]
    rcases List.mem_cons.mp h with h1 | h2
    · obtain ⟨rfl, rfl⟩ := Prod.mk.injEq .. ▸ h1
      simp
    · have hne : a ≠ k := by
        intro hk
        apply hn.1
        have hm : a ∈ t.map Prod.fst := List.mem_map_of_mem Prod.fst h2
        rw [hk] at hm
        exact hm
      rw [if_neg hne]
      exact ih hn.2 h2

theorem key_ne_of_lookup_none {β : Type} {a : String} {l : List (String × β)}
    (h : List.lookup a l = none) : ∀ p ∈ l, p.1 ≠ a := by
  intro p hp hpa
  have : p.1 ∈ l.map Prod.fst := List.mem_map_of_mem Prod.fst hp
  rw [hpa] at this
  exact lookup_eq_none_iff.mp h this

/-! ## Lemmas about the sorted occupied-slot index -/

theorem mem_update_sorted_keys {slots : Nat} {ring : List (Option String)}
    {k : Nat} :
    k ∈ update_sorted_keys slots ring ↔ k < slots ∧ ringCell ring k ≠ none := by
  rw [update_sorted_keys, List.mem_filter, List.mem_range,
    Option.isSome_iff_ne_none]

theorem update_sorted_keys_pairwise (slots : Nat)
    (ring : List (Option String)) :
    (update_sorted_keys slots ring).Pairwise (· < ·) :=
  (List.pairwise_lt_range slots).filter _

theorem update_sorted_keys_congr {slots : Nat}
    {r1 r2 : List (Option String)}
    (h : ∀ i, i < slots → ringCell r1 i = ringCell r2 i) :
    update_sorted_keys slots r1 = update_sorted_keys slots r2 := by
  rw [update_sorted_keys, update_sorted_keys]
  exact List.filter_congr fun i hi => by rw [h i (List.mem_range.mp hi)]

theorem getD_eq_get {keys : List Nat} {i : Nat} (h : i < keys.length) :
    keys.getD i 0 = keys.get ⟨i, h⟩ := by
  rw [List.getD_eq_getElem?_getD, List.getElem?_eq_getElem h]
  rfl

theorem getD_mem {keys : List Nat} {i : Nat} (h : i < keys.length) :
    keys.getD i 0 ∈ keys := by
  rw [getD_eq_get h]; exact List.get_mem keys i h

theorem pairwise_getD_le {keys : List Nat} (hs : keys.Pairwise (· < ·))
    {i j : Nat} (hij : i ≤ j) (hj : j < keys.length) :
    keys.getD i 0 ≤ keys.getD j 0 := by
  rcases Nat.eq_or_lt_of_le hij with h | h
  · rw [h]
  · have hi : i < keys.length := Nat.lt_trans h hj
    rw [getD_eq_get hi, getD_eq_get hj]
    exact Nat.le_of_lt (List.pairwise_iff_get.mp hs ⟨i, hi⟩ ⟨j, hj⟩ h)

/-! ## Linear probing: `_find_next_slot` -/

/-- Probing visits every residue: some offset `j < slots` reaches slot `t`. -/
theorem probe_hits (slots start t : Nat) (h0 : 0 < slots) (ht : t < slots) :
    ∃ j, j < slots ∧ (start + j) % slots = t := by
  refine ⟨(t + slots - start % slots) % slots, Nat.mod_lt _ h0, ?_⟩
  have hr : start % slots < slots := Nat.mod_lt _ h0
  have hdm : slots * (start / slots) + start % slots = start :=
    Nat.div_add_mod start slots
  rw [Nat.add_mod_mod]
  have hrw : start + (t + slots - start % slots)
      = t + slots * (1 + start / slots) := by
    rw [Nat.mul_add, Nat.mul_one]
    omega
  rw [hrw, Nat.add_mul_mod_self_left, Nat.mod_eq_of_lt ht]

theorem findNextGo_none {ring : List (Option String)} {slots start : Nat} :
    ∀ {i remaining : Nat},
    findNextGo ring slots start i remaining = none →
    ∀ j, i ≤ j → j < i + remaining →
    ringCell ring ((start + j) % slots) ≠ none := by
  intro i remaining
  induction remaining generalizing i with
  | zero => intro _ j h1 h2; omega
  | succ rem ih =>
    intro h j h1 h2
    rw [findNextGo] at h
    by_cases hc : ringCell ring ((start + i) % slots) = none
    · simp only [hc, if_pos] at h
      exact Option.noConfusion h
    · simp only [hc, if_neg, ite_false] at h
      rcases Nat.eq_or_lt_of_le h1 with rfl | hlt
      · exact hc
      · exact ih h j hlt (by omega)

theorem findNextGo_some {ring : List (Option String)} {slots start : Nat}
    (h0 : 0 < slots) :
    ∀ {i remaining sl : Nat},
    findNextGo ring slots start i remaining = some sl →
    ringCell ring sl = none ∧ sl < slots := by
  intro i remaining
  induction remaining generalizing i with
  | zero => intro sl h; exact Option.noConfusion h
  | succ rem ih =>
    intro sl h
    rw [findNextGo] at h
    by_cases hc : ringCell ring ((start + i) % slots) = none
    · simp only [hc, if_pos] at h
      obtain rfl : (start + i) % slots = sl := Option.some_injective _ h
      exact ⟨hc, Nat.mod_lt _ h0⟩
    · simp only [hc, if_neg, ite_false] at h
      exact ih h

theorem find_next_slot_none {ring : List (Option String)} {slots start : Nat}
    (h : find_next_slot ring slots start = none) :
    ∀ t, t < slots → ringCell ring t ≠ none := by
  intro t ht
  have h0 : 0 < slots := Nat.lt_of_le_of_lt (Nat.zero_le t) ht
  obtain ⟨j, hj, hjt⟩ := probe_hits slots start t h0 ht
  have := findNextGo_none h j (Nat.zero_le j) (by omega)
  rw [hjt] at this
  exact this

theorem find_next_slot_some {ring : List (Option String)} {slots start sl : Nat}
    (h0 : 0 < slots) (h : find_next_slot ring slots start = some sl) :
    ringCell ring sl = none ∧ sl < slots :=
  findNextGo_some h0 h

/-! ## Counting empty cells -/

theorem cell_getElem {ring : List (Option String)} {i : Nat}
    (h : i < ring.length) : ringCell ring i = ring[i] := by
  rw [ringCell_eq_getElem?, List.getElem?_eq_getElem h]
  rfl

theorem emptyCount_pos {ring : List (Option String)}
    (h : ∃ t, t < ring.length ∧ ringCell ring t = none) :
    0 < emptyCount ring := by
  obtain ⟨t, ht, hc⟩ := h
  rw [cell_getElem ht] at hc
  exact List.countP_pos_iff.mpr ⟨ring[t], List.getElem_mem ht, by rw [hc]; rfl⟩

theorem exists_empty_of_emptyCount_pos {ring : List (Option String)}
    (h : 0 < emptyCount ring) :
    ∃ t, t < ring.length ∧ ringCell ring t = none := by
  obtain ⟨a, hmem, hp⟩ := List.countP_pos_iff.mp h
  obtain ⟨n, hn, hna⟩ := List.mem_iff_getElem.mp hmem
  refine ⟨n, hn, ?_⟩
  rw [cell_getElem hn, hna]
  exact Option.isNone_iff_eq_none.mp hp

theorem emptyCount_set_some {ring : List (Option String)} {c : Nat}
    (hc : c < ring.length) (hnone : ringCell ring c = none) (x : String) :
    emptyCount (ring.set c (some x)) = emptyCount ring - 1 := by
  rw [emptyCount, emptyCount, List.countP_set _ _ _ _ hc]
  have hx : ring[c] = none := by rw [← cell_getElem hc]; exact hnone
  simp [hx]

/-- A duplicate-free list of empty in-range slots cannot exceed the empty-cell
count. -/
theorem claimed_le_emptyCount :
    ∀ (claimed : List Nat) (ring : List (Option String)),
      claimed.Nodup →
      (∀ c ∈ claimed, c < ring.length ∧ ringCell ring c = none) →
      claimed.length ≤ emptyCount ring := by
  intro claimed
  induction claimed with
  | nil => intro ring _ _; exact Nat.zero_le _
  | cons c rest ih =>
    intro ring hnodup hprop
    rw [List.nodup_cons] at hnodup
    obtain ⟨hclt, hcnone⟩ := hprop c (List.mem_cons_self _ _)
    have hpos : 0 < emptyCount ring := emptyCount_pos ⟨c, hclt, hcnone⟩
    have hrest : rest.length ≤ emptyCount (ring.set c (some "")) := by
      apply ih _ hnodup.2
      intro x hx
      obtain ⟨hxlt, hxnone⟩ := hprop x (List.mem_cons_of_mem _ hx)
      refine ⟨by rw [List.length_set]; exact hxlt, ?_⟩
      rw [ringCell_set]
      have hne : ¬(c = x ∧ c < ring.length) := by
        intro ⟨he, _⟩
        exact hnodup.1 (he ▸ hx)
      rw [if_neg hne]
      exact hxnone
    rw [emptyCount_set_some hclt hcnone] at hrest
    simp only [List.length_cons]
    omega

/-! ## Characterization of the `add_server` replica loop -/

/-- One iteration of the replica loop either claims an empty slot `cs < slots`
(directly or by probing) or, with the ring completely full, rolls back. -/
theorem addLoop_cons_cases (hv : String → Nat → Nat) (slots : Nat)
    (server_id : String) (j : Nat) (js : List Nat)
    (ring : List (Option String)) (vslots : List Nat) (h0 : 0 < slots) :
    (∃ cs, ringCell ring cs = none ∧ cs < slots ∧
        addLoop hv slots server_id (j :: js) ring vslots =
          addLoop hv slots server_id js (ring.set cs (some server_id))
            (vslots ++ [cs])) ∨
    ((∀ t, t < slots → ringCell ring t ≠ none) ∧
        addLoop hv slots server_id (j :: js) ring vslots =
          .error (clearSlots ring vslots)) := by
  by_cases hc : ringCell ring (hash_virtual_server hv slots server_id j) = none
  · left
    exact ⟨_, hc, Nat.mod_lt _ h0, by rw [addLoop]; simp [hc]⟩
  · cases hf : find_next_slot ring slots
      (hash_virtual_server hv slots server_id j) with
    | none =>
      right
      exact ⟨find_next_slot_none hf, by rw [addLoop]; simp [hc, hf]⟩
    | some slot =>
      left
      obtain ⟨hnone, hlt⟩ := find_next_slot_some h0 hf
      exact ⟨slot, hnone, hlt, by rw [addLoop]; simp [hc, hf]⟩

/-- Success of the replica loop: exactly one fresh empty slot is claimed per
remaining replica, the claimed slots are pairwise distinct, in range, and the
final ring extends the initial one precisely on the claimed slots. -/
theorem addLoop_ok_spec (hv : String → Nat → Nat) (slots : Nat)
    (server_id : String) (h0 : 0 < slots) :
    ∀ (js : List Nat) (ring : List (Option String)) (vslots : List Nat)
      {ring2 : List (Option String)} {vslots2 : List Nat},
      ring.length = slots →
      addLoop hv slots server_id js ring vslots = .ok (ring2, vslots2) →
      ∃ claimed : List Nat,
        vslots2 = vslots ++ claimed ∧
        claimed.length = js.length ∧
        claimed.Nodup ∧
        (∀ c ∈ claimed, c < slots ∧ ringCell ring c = none) ∧
        (∀ sl, ringCell ring2 sl =
          if sl ∈ claimed then some server_id else ringCell ring sl) ∧
        ring2.length = ring.length := by
  intro js
  induction js with
  | nil =>
    intro ring vslots ring2 vslots2 hlen h
    rw [addLoop] at h
    simp only [Except.ok.injEq, Prod.mk.injEq] at h
    obtain ⟨rfl, rfl⟩ := h
    exact ⟨[], by simp, rfl, List.nodup_nil, by simp, fun sl => by simp, rfl⟩
  | cons j js ih =>
    intro ring vslots ring2 vslots2 hlen h
    rcases addLoop_cons_cases hv slots server_id j js ring vslots h0 with
      ⟨cs, hcs_none, hcs_lt, heq⟩ | ⟨_, heq⟩
    · rw [heq] at h
      have hlen' : (ring.set cs (some server_id)).length = slots := by
        rw [List.length_set]; exact hlen
      obtain ⟨claimed', h1, h2, h3, h4, h5, h6⟩ := ih _ _ hlen' h
      have hcs_ring : cs < ring.length := hlen ▸ hcs_lt
      refine ⟨cs :: claimed', ?_, ?_, ?_, ?_, ?_, ?_⟩
      · rw [h1, List.append_assoc];  rfl
      · simp [h2]
      · rw [List.nodup_cons]
        refine ⟨?_, h3⟩
        intro hmem
        have hcell := (h4 cs hmem).2
        rw [ringCell_set, if_pos ⟨rfl, hcs_ring⟩] at hcell
        exact Option.noConfusion hcell
      · intro c hc
        rcases List.mem_cons.mp hc with rfl | hc'
        · exact ⟨hcs_lt, hcs_none⟩
        · obtain ⟨hlt, hcell⟩ := h4 c hc'
          refine ⟨hlt, ?_⟩
          rw [ringCell_set] at hcell
          by_cases hceq : cs = c ∧ cs < ring.length
          · rw [if_pos hceq] at hcell; exact Option.noConfusion hcell
          · rw [if_neg hceq] at hcell; exact hcell
      · intro sl
        rw [h5 sl, ringCell_set]
        by_cases hin : sl ∈ claimed'
        · simp [hin, List.mem_cons]
        · by_cases hsl : cs = sl
          · subst hsl
            simp [hcs_ring, List.mem_cons, hin]
          · have hnot : ¬sl ∈ cs :: claimed' := by
              rw [List.mem_cons]
              rintro (h' | h')
              · exact hsl h'.symm
              · exact hin h'
            simp [hin, hsl, hnot]
      · rw [h6, List.length_set]
    · rw [heq] at h
      exact Except.noConfusion h

/-- Failure of the replica loop: the returned ring is the current ring with
every accumulated and every freshly claimed slot cleared; the fresh slots were
all empty in the initial ring. -/
theorem addLoop_err_spec (hv : String → Nat → Nat) (slots : Nat)
    (server_id : String) (h0 : 0 < slots) :
    ∀ (js : List Nat) (ring : List (Option String)) (vslots : List Nat)
      {ring2 : List (Option String)},
      ring.length = slots →
      addLoop hv slots server_id js ring vslots = .error ring2 →
      ∃ claimed : List Nat,
        (∀ c ∈ claimed, c < slots ∧ ringCell ring c = none) ∧
        (∀ sl, ringCell ring2 sl =
          if sl ∈ vslots ++ claimed then none else ringCell ring sl) ∧
        ring2.length = ring.length := by
  intro js
  induction js with
  | nil =>
    intro ring vslots ring2 hlen h
    rw [addLoop] at h
    exact Except.noConfusion h
  | cons j js ih =>
    intro ring vslots ring2 hlen h
    rcases addLoop_cons_cases hv slots server_id j js ring vslots h0 with
      ⟨cs, hcs_none, hcs_lt, heq⟩ | ⟨_, heq⟩
    · rw [heq] at h
      have hlen' : (ring.set cs (some server_id)).length = slots := by
        rw [List.length_set]; exact hlen
      obtain ⟨claimed', h4, h5, h6⟩ := ih _ _ hlen' h
      have hcs_ring : cs < ring.length := hlen ▸ hcs_lt
      have hassoc : (vslots ++ [cs]) ++ claimed' = vslots ++ cs :: claimed' := by
        rw [List.append_assoc]; rfl
      refine ⟨cs :: claimed', ?_, ?_, ?_⟩
      · intro c hc
        rcases List.mem_cons.mp hc with rfl | hc'
        · exact ⟨hcs_lt, hcs_none⟩
        · obtain ⟨hlt, hcell⟩ := h4 c hc'
          refine ⟨hlt, ?_⟩
          rw [ringCell_set] at hcell
          by_cases hceq : cs = c ∧ cs < ring.length
          · rw [if_pos hceq] at hcell; exact Option.noConfusion hcell
          · rw [if_neg hceq] at hcell; exact hcell
      · intro sl
        rw [h5 sl, hassoc, ringCell_set]
        by_cases hin : sl ∈ vslots ++ cs :: claimed'
        · simp [hin]
        · have hsl : ¬(cs = sl ∧ cs < ring.length) := by
            rintro ⟨rfl, _⟩
            exact hin (List.mem_append.mpr (Or.inr (List.mem_cons_self _ _)))
          rw [if_neg hin, if_neg hin, if_neg hsl]
      · rw [h6, List.length_set]
    · rw [heq] at h
      obtain rfl : clearSlots ring vslots = ring2 := by
        injection h
      refine ⟨[], by simp, ?_, clearSlots_length _ _⟩
      intro sl
      rw [List.append_nil, ringCell_clearSlots]

/-- With at least as many empty slots as remaining replicas, the replica loop
succeeds. -/
theorem addLoop_ok_of_capacity (hv : String → Nat → Nat) (slots : Nat)
    (server_id : String) (h0 : 0 < slots) :
    ∀ (js : List Nat) (ring : List (Option String)) (vslots : List Nat),
      ring.length = slots →
      js.length ≤ emptyCount ring →
      ∃ ring2 vslots2,
        addLoop hv slots server_id js ring vslots = .ok (ring2, vslots2) := by
  intro js
  induction js with
  | nil => intro ring vslots _ _; exact ⟨ring, vslots, rfl⟩
  | cons j js ih =>
    intro ring vslots hlen hcap
    simp only [List.length_cons] at hcap
    rcases addLoop_cons_cases hv slots server_id j js ring vslots h0 with
      ⟨cs, hcs_none, hcs_lt, heq⟩ | ⟨hfull, heq⟩
    · rw [heq]
      apply ih _ _ (by rw [List.length_set]; exact hlen)
      rw [emptyCount_set_some (hlen ▸ hcs_lt) hcs_none]
      omega
    · exfalso
      have hpos : 0 < emptyCount ring := by omega
      obtain ⟨t, ht, htn⟩ := exists_empty_of_emptyCount_pos hpos
      exact hfull t (hlen ▸ ht) htn

/-- Failure of the replica loop implies insufficient capacity. -/
theorem addLoop_err_capacity (hv : String → Nat → Nat) (slots : Nat)
    (server_id : String) (h0 : 0 < slots) (js : List Nat)
    (ring : List (Option String)) (vslots : List Nat)
    {ring2 : List (Option String)} (hlen : ring.length = slots)
    (h : addLoop hv slots server_id js ring vslots = .error ring2) :
    emptyCount ring < js.length := by
  by_contra hcap
  obtain ⟨r2, v2, hok⟩ := addLoop_ok_of_capacity hv slots server_id h0 js ring
    vslots hlen (Nat.le_of_not_lt hcap)
  rw [hok] at h
  exact Except.noConfusion h

/-! ## State-level description of `add_server` and `remove_server` -/

theorem add_server_present {hv : String → Nat → Nat} {s : ConsistentHash}
    {server_id : String}
    (h : (List.lookup server_id s.servers).isSome) :
    add_server hv s server_id = (s, false) := by
  rw [add_server, if_pos h]

theorem lookup_isSome_false_iff {β : Type} {a : String} {l : List (String × β)}
    (h : ¬(List.lookup a l).isSome = true) : List.lookup a l = none := by
  cases hl : List.lookup a l with
  | none => rfl
  | some v => rw [hl] at h; exact absurd rfl h

/-- On replica-loop failure, the rollback restores the ring exactly and
`add_server` returns the unmodified state. -/
theorem add_server_rollback {hv : String → Nat → Nat} {s : ConsistentHash}
    {server_id : String}
    (habs : List.lookup server_id s.servers = none)
    (hpos : 0 < s.slots) (hlen : s.ring.length = s.slots)
    {ring2 : List (Option String)}
    (herr : addLoop hv s.slots server_id (List.range s.virtual_servers)
      s.ring [] = .error ring2) :
    add_server hv s server_id = (s, false) := by
  obtain ⟨claimed, h4, h5, h6⟩ :=
    addLoop_err_spec hv s.slots server_id hpos _ s.ring [] hlen herr
  have hring : ring2 = s.ring := by
    apply ringCell_ext h6
    intro i
    rw [h5 i, List.nil_append]
    by_cases hi : i ∈ claimed
    · rw [if_pos hi, (h4 i hi).2]
    · rw [if_neg hi]
  have hfalse : ¬(List.lookup server_id s.servers).isSome = true := by
    rw [habs]; intro hc; exact Bool.noConfusion hc
  rw [add_server, if_neg hfalse, herr]
  rw [hring]

theorem add_server_success {hv : String → Nat → Nat} {s : ConsistentHash}
    {server_id : String}
    (habs : List.lookup server_id s.servers = none)
    {ring2 : List (Option String)} {vslots : List Nat}
    (hok : addLoop hv s.slots server_id (List.range s.virtual_servers)
      s.ring [] = .ok (ring2, vslots)) :
    add_server hv s server_id =
      ({ s with
          ring := ring2
          servers := s.servers ++ [(server_id, vslots)]
          sorted_keys := update_sorted_keys s.slots ring2 }, true) := by
  have hfalse : ¬(List.lookup server_id s.servers).isSome = true := by
    rw [habs]; intro hc; exact Bool.noConfusion hc
  rw [add_server, if_neg hfalse, hok]

theorem remove_server_absent {s : ConsistentHash} {server_id : String}
    (h : List.lookup server_id s.servers = none) :
    remove_server s server_id = (s, false) := by
  rw [remove_server, h]

theorem remove_server_present {s : ConsistentHash} {server_id : String}
    {vslots : List Nat} (h : List.lookup server_id s.servers = some vslots) :
    remove_server s server_id =
      ({ s with
          ring := clearSlots s.ring vslots
          servers := s.servers.filter fun p => p.1 != server_id
          sorted_keys := update_sorted_keys s.slots (clearSlots s.ring vslots) },
        true) := by
  rw [remove_server, h]

/-! ## Invariant preservation -/

theorem inv_init (slots virtual_servers : Nat) (h0 : 0 < slots) :
    Inv (initCH slots virtual_servers) := by
  refine ⟨h0, ?_, ?_, ?_, ?_, ?_, ?_⟩
  · exact List.length_replicate slots none
  · simp [initCH]
  · intro server_id vs hmem
    exact absurd hmem (List.not_mem_nil _)
  · intro sl server_id hcell
    rw [initCH] at hcell
    simp only at hcell
    rw [ringCell_replicate] at hcell
    exact Option.noConfusion hcell
  · show ([] : List Nat) = update_sorted_keys slots (List.replicate slots none)
    symm
    rw [update_sorted_keys]
    apply List.filter_eq_nil_iff.mpr
    intro i _
    rw [ringCell_replicate]
    simp
  · intro server_id vs hmem
    exact absurd hmem (List.not_mem_nil _)

theorem inv_add (hv : String → Nat → Nat) {s : ConsistentHash}
    (h : Inv s) (server_id : String) : Inv (add_server hv s server_id).1 := by
  by_cases hp : (List.lookup server_id s.servers).isSome = true
  · rw [add_server_present hp]
    exact h
  · have habs := lookup_isSome_false_iff hp
    cases hres : addLoop hv s.slots server_id (List.range s.virtual_servers)
        s.ring [] with
    | error ring2 =>
      rw [add_server_rollback habs h.pos h.len hres]
      exact h
    | ok p =>
      obtain ⟨ring2, vslots⟩ := p
      rw [add_server_success habs hres]
      obtain ⟨claimed, hv1, hv2, hv3, hv4, hv5, hv6⟩ :=
        addLoop_ok_spec hv s.slots server_id h.pos _ s.ring [] h.len hres
      rw [List.nil_append] at hv1
      subst hv1
      have hid_notin : server_id ∉ s.servers.map Prod.fst :=
        lookup_eq_none_iff.mp habs
      refine ⟨h.pos, ?_, ?_, ?_, ?_, rfl, ?_⟩
      · rw [hv6]; exact h.len
      · simp only [List.map_append, List.map_cons, List.map_nil]
        rw [List.nodup_append]
        refine ⟨h.nodupKeys, List.nodup_singleton _, ?_⟩
        intro a ha hb
        rw [List.mem_singleton] at hb
        exact hid_notin (hb ▸ ha)
      · intro id' vs' hmem sl
        rcases List.mem_append.mp hmem with hold | hnew
        · have hne : id' ≠ server_id := by
            intro he
            exact hid_notin (he ▸ List.mem_map_of_mem Prod.fst hold)
          rw [hv5 sl]
          by_cases hin : sl ∈ vslots
          · rw [if_pos hin]
            constructor
            · intro hsome
              exact absurd (Option.some_injective _ hsome).symm hne
            · intro hvs
              have := (h.cons id' vs' hold sl).mpr hvs
              rw [(hv4 sl hin).2] at this
              exact Option.noConfusion this
          · rw [if_neg hin]
            exact h.cons id' vs' hold sl
        · rw [List.mem_singleton] at hnew
          have hid : id' = server_id := congrArg Prod.fst hnew
          have hveq : vs' = vslots := congrArg Prod.snd hnew
          rw [hid, hveq, hv5 sl]
          by_cases hin : sl ∈ vslots
          · simp [hin]
          · rw [if_neg hin]
            constructor
            · intro hsome
              obtain ⟨vs, hvs⟩ := h.owner sl server_id hsome
              exact absurd (List.mem_map_of_mem Prod.fst hvs) hid_notin
            · intro hvs
              exact absurd hvs hin
      · intro sl id' hcell
        rw [hv5 sl] at hcell
        by_cases hin : sl ∈ vslots
        · rw [if_pos hin] at hcell
          obtain rfl := Option.some_injective _ hcell
          exact ⟨vslots, List.mem_append.mpr (Or.inr (List.mem_singleton.mpr rfl))⟩
        · rw [if_neg hin] at hcell
          obtain ⟨vs, hvs⟩ := h.owner sl id' hcell
          exact ⟨vs, List.mem_append.mpr (Or.inl hvs)⟩
      · intro id' vs' hmem
        rcases List.mem_append.mp hmem with hold | hnew
        · exact h.replen id' vs' hold
        · rw [List.mem_singleton] at hnew
          obtain ⟨rfl, rfl⟩ := Prod.mk.injEq .. ▸ hnew
          rw [hv2, List.length_range]
          exact ⟨rfl, hv3⟩

theorem inv_remove {s : ConsistentHash} (h : Inv s) (server_id : String) :
    Inv (remove_server s server_id).1 := by
  cases hl : List.lookup server_id s.servers with
  | none =>
    rw [remove_server_absent hl]
    exact h
  | some vslots =>
    rw [remove_server_present hl]
    have hmem : (server_id, vslots) ∈ s.servers := lookup_eq_some_mem hl
    refine ⟨h.pos, ?_, ?_, ?_, ?_, rfl, ?_⟩
    · rw [clearSlots_length]; exact h.len
    · apply List.Nodup.sublist _ h.nodupKeys
      exact List.Sublist.map Prod.fst (List.filter_sublist _)
    · intro id' vs' hmem' sl
      rw [List.mem_filter] at hmem'
      obtain ⟨hold, hne'⟩ := hmem'
      have hne : id' ≠ server_id := by
        simpa using hne'
      rw [ringCell_clearSlots]
      by_cases hin : sl ∈ vslots
      · rw [if_pos hin]
        constructor
        · intro hc; exact Option.noConfusion hc
        · intro hvs
          have h1 := (h.cons id' vs' hold sl).mpr hvs
          have h2 := (h.cons server_id vslots hmem sl).mpr hin
          rw [h1] at h2
          exact (hne (Option.some_injective _ h2)).elim
      · rw [if_neg hin]
        exact h.cons id' vs' hold sl
    · intro sl id' hcell
      rw [ringCell_clearSlots] at hcell
      by_cases hin : sl ∈ vslots
      · rw [if_pos hin] at hcell
        exact Option.noConfusion hcell
      · rw [if_neg hin] at hcell
        obtain ⟨vs, hvs⟩ := h.owner sl id' hcell
        have hne : id' ≠ server_id := by
          intro he
          subst he
          have := lookup_of_mem_nodup h.nodupKeys hvs
          rw [hl] at this
          obtain rfl := Option.some_injective _ this
          exact hin ((h.cons id' vslots hvs sl).mp hcell)
        refine ⟨vs, List.mem_filter.mpr ⟨hvs, ?_⟩⟩
        simpa using hne
    · intro id' vs' hmem'
      rw [List.mem_filter] at hmem'
      exact h.replen id' vs' hmem'.1

theorem inv_step (hv : String → Nat → Nat) {s : ConsistentHash}
    (h : Inv s) (op : RingOp) : Inv (stepOp hv s op) := by
  cases op with
  | add server_id => exact inv_add hv h server_id
  | remove server_id => exact inv_remove h server_id

theorem inv_runOps (hv : String → Nat → Nat) {s : ConsistentHash}
    (h : Inv s) (ops : List RingOp) : Inv (runOps hv s ops) := by
  induction ops generalizing s with
  | nil => exact h
  | cons op t ih => exact ih (inv_step hv h op)

theorem reachable_inv {hv : String → Nat → Nat} {s : ConsistentHash}
    (h : Reachable hv s) : Inv s := by
  obtain ⟨slots, virtual_servers, ops, h0, rfl⟩ := h
  exact inv_runOps hv (inv_init slots virtual_servers h0) ops

/-! ## Correctness of the binary search in `get_server` -/

/-- Loop invariant of the binary search: everything left of `left` is below
`slot`, everything from `r1` on is at least `slot`, and `res` tracks the best
index found so far. -/
theorem bsearchGo_spec (keys : List Nat) (slot : Nat)
    (hs : keys.Pairwise (· < ·)) :
    ∀ (fuel left r1 res : Nat),
      r1 - left ≤ fuel → left ≤ r1 → r1 ≤ keys.length →
      (∀ i, i < left → keys.getD i 0 < slot) →
      (∀ i, r1 ≤ i → i < keys.length → slot ≤ keys.getD i 0) →
      ((res = r1 ∧ r1 < keys.length) ∨ (res = 0 ∧ r1 = keys.length)) →
      ((bsearchGo keys slot fuel left r1 res < keys.length ∧
        slot ≤ keys.getD (bsearchGo keys slot fuel left r1 res) 0 ∧
        ∀ i, i < bsearchGo keys slot fuel left r1 res →
          keys.getD i 0 < slot) ∨
       (bsearchGo keys slot fuel left r1 res = 0 ∧
        ∀ i, i < keys.length → keys.getD i 0 < slot)) := by
  intro fuel
  induction fuel with
  | zero =>
    intro left r1 res hfuel hlr hr1 hL hR hres
    rw [bsearchGo]
    rcases hres with ⟨he, hlt⟩ | ⟨he, he2⟩
    · left
      rw [he]
      exact ⟨hlt, hR r1 (Nat.le_refl _) hlt, fun i hi => hL i (by omega)⟩
    · right
      rw [he]
      exact ⟨rfl, fun i hi => hL i (by omega)⟩
  | succ fuel ih =>
    intro left r1 res hfuel hlr hr1 hL hR hres
    rw [bsearchGo]
    by_cases hc : left < r1
    · rw [if_pos hc]
      have hmid_ge : left ≤ (left + r1 - 1) / 2 := by omega
      have hmid_lt : (left + r1 - 1) / 2 < r1 := by omega
      by_cases hcmp : slot ≤ keys.getD ((left + r1 - 1) / 2) 0
      · rw [if_pos hcmp]
        apply ih left ((left + r1 - 1) / 2) ((left + r1 - 1) / 2) (by omega)
          hmid_ge (by omega) hL ?_ (Or.inl ⟨rfl, by omega⟩)
        intro i hi hilen
        exact Nat.le_trans hcmp (pairwise_getD_le hs hi hilen)
      · rw [if_neg hcmp]
        apply ih ((left + r1 - 1) / 2 + 1) r1 res (by omega) (by omega) hr1
          ?_ hR hres
        intro i hi
        have hle : keys.getD i 0 ≤ keys.getD ((left + r1 - 1) / 2) 0 :=
          pairwise_getD_le hs (by omega) (by omega)
        omega
    · rw [if_neg hc]
      rcases hres with ⟨he, hlt⟩ | ⟨he, he2⟩
      · left
        rw [he]
        exact ⟨hlt, hR r1 (Nat.le_refl _) hlt, fun i hi => hL i (by omega)⟩
      · right
        rw [he]
        exact ⟨rfl, fun i hi => hL i (by omega)⟩

/-- Top-level result of the binary search as called by `get_server`: either
the first index whose key is `≥ slot`, or `0` with every key `< slot`. -/
theorem bsearch_result (keys : List Nat) (slot : Nat)
    (hs : keys.Pairwise (· < ·)) :
    (bsearchGo keys slot keys.length 0 keys.length 0 < keys.length ∧
     slot ≤ keys.getD (bsearchGo keys slot keys.length 0 keys.length 0) 0 ∧
     ∀ i, i < bsearchGo keys slot keys.length 0 keys.length 0 →
       keys.getD i 0 < slot) ∨
    (bsearchGo keys slot keys.length 0 keys.length 0 = 0 ∧
     ∀ i, i < keys.length → keys.getD i 0 < slot) := by
  apply bsearchGo_spec keys slot hs keys.length 0 keys.length 0 (by omega)
    (Nat.zero_le _) (Nat.le_refl _)
  · intro i hi; omega
  · intro i hi hilen; omega
  · exact Or.inr ⟨rfl, rfl⟩

theorem isCircSucc_unique {occ : List Nat} {f a b : Nat}
    (ha : IsCircSucc occ f a) (hb : IsCircSucc occ f b) : a = b := by
  rcases ha with ⟨hma, hfa, hmina⟩ | ⟨halla, hma, hmina⟩ <;>
    rcases hb with ⟨hmb, hfb, hminb⟩ | ⟨hallb, hmb, hminb⟩
  · exact Nat.le_antisymm (hmina b hmb hfb) (hminb a hma hfa)
  · exact absurd hfa (Nat.not_le.mpr (hallb a hma))
  · exact absurd hfb (Nat.not_le.mpr (halla b hmb))
  · exact Nat.le_antisymm (hmina b hmb) (hminb a hma)

/-- Characterization of `get_server`'s slot lookup: on an empty occupied set
it returns `none`; otherwise it reads the ring at the circular successor of
the fingerprint. -/
theorem lookupSlot_char (s : ConsistentHash)
    (hsk : s.sorted_keys = update_sorted_keys s.slots s.ring)
    (hserv : s.servers = [] → update_sorted_keys s.slots s.ring = [])
    (f : Nat) :
    (update_sorted_keys s.slots s.ring = [] → lookupSlot s f = none) ∧
    (update_sorted_keys s.slots s.ring ≠ [] →
      ∃ sl, IsCircSucc (update_sorted_keys s.slots s.ring) f sl ∧
        lookupSlot s f = ringCell s.ring sl) := by
  constructor
  · intro hocc
    rw [lookupSlot]
    by_cases hs0 : s.servers = []
    · rw [if_pos hs0]
    · rw [if_neg hs0, hsk, hocc]
      simp
  · intro hocc
    have hs0 : s.servers ≠ [] := fun h' => hocc (hserv h')
    have hkeys : s.sorted_keys ≠ [] := by rw [hsk]; exact hocc
    have hsorted : s.sorted_keys.Pairwise (· < ·) := by
      rw [hsk]; exact update_sorted_keys_pairwise _ _
    have hlen0 : 0 < s.sorted_keys.length := List.length_pos.mpr hkeys
    rw [lookupSlot, if_neg hs0, if_neg hkeys]
    simp only []
    rcases bsearch_result s.sorted_keys f hsorted with
      ⟨hout_lt, hout_ge, hout_min⟩ | ⟨hout0, hall⟩
    · have hcond : ¬(s.sorted_keys.length ≤
          bsearchGo s.sorted_keys f s.sorted_keys.length 0
            s.sorted_keys.length 0 ∨
          s.sorted_keys.getD (bsearchGo s.sorted_keys f s.sorted_keys.length 0
            s.sorted_keys.length 0) 0 < f) := by
        push_neg
        exact ⟨hout_lt, hout_ge⟩
      rw [if_neg hcond]
      refine ⟨s.sorted_keys.getD (bsearchGo s.sorted_keys f
        s.sorted_keys.length 0 s.sorted_keys.length 0) 0, ?_, rfl⟩
      left
      refine ⟨hsk ▸ getD_mem hout_lt, hout_ge, ?_⟩
      intro k hk hfk
      rw [← hsk] at hk
      obtain ⟨⟨j, hj⟩, hjk⟩ := List.mem_iff_get.mp hk
      rw [← getD_eq_get hj] at hjk
      by_cases hj_lt : j < bsearchGo s.sorted_keys f s.sorted_keys.length 0
          s.sorted_keys.length 0
      · have := hout_min j hj_lt
        omega
      · rw [← hjk]
        exact pairwise_getD_le hsorted (Nat.le_of_not_lt hj_lt) hj
    · have hcond : s.sorted_keys.length ≤
          bsearchGo s.sorted_keys f s.sorted_keys.length 0
            s.sorted_keys.length 0 ∨
          s.sorted_keys.getD (bsearchGo s.sorted_keys f s.sorted_keys.length 0
            s.sorted_keys.length 0) 0 < f := by
        right
        rw [hout0]
        exact hall 0 hlen0
      rw [if_pos hcond]
      refine ⟨s.sorted_keys.getD 0 0, ?_, rfl⟩
      right
      refine ⟨?_, hsk ▸ getD_mem hlen0, ?_⟩
      · intro k hk
        rw [← hsk] at hk
        obtain ⟨⟨j, hj⟩, hjk⟩ := List.mem_iff_get.mp hk
        rw [← getD_eq_get hj] at hjk
        rw [← hjk]
        exact hall j hj
      · intro k hk
        rw [← hsk] at hk
        obtain ⟨⟨j, hj⟩, hjk⟩ := List.mem_iff_get.mp hk
        rw [← getD_eq_get hj] at hjk
        rw [← hjk]
        exact pairwise_getD_le hsorted (Nat.zero_le _) hj

/-! ## Remaining helpers for the claim theorems -/

theorem ext_fields {a b : ConsistentHash}
    (h1 : a.slots = b.slots) (h2 : a.virtual_servers = b.virtual_servers)
    (h3 : a.ring = b.ring) (h4 : a.servers = b.servers)
    (h5 : a.sorted_keys = b.sorted_keys) : a = b := by
  cases a; cases b
  simp only at h1 h2 h3 h4 h5
  rw [h1, h2, h3, h4, h5]

/-- In an invariant state with an empty registry the ring has no occupied
slot. -/
theorem inv_hserv {s : ConsistentHash} (h : Inv s) :
    s.servers = [] → update_sorted_keys s.slots s.ring = [] := by
  intro hs0
  rw [update_sorted_keys]
  apply List.filter_eq_nil_iff.mpr
  intro i _
  cases hc : ringCell s.ring i with
  | none => simp
  | some server_id =>
    obtain ⟨vs, hvs⟩ := h.owner i server_id hc
    rw [hs0] at hvs
    exact absurd hvs (List.not_mem_nil _)

theorem remove_fields {s : ConsistentHash} {x : String} {vslots : List Nat}
    (h : List.lookup x s.servers = some vslots) :
    (remove_server s x).1.slots = s.slots ∧
    (remove_server s x).1.virtual_servers = s.virtual_servers ∧
    (remove_server s x).1.ring = clearSlots s.ring vslots ∧
    (remove_server s x).1.servers = s.servers.filter (fun p => p.1 != x) ∧
    (remove_server s x).1.sorted_keys =
      update_sorted_keys s.slots (clearSlots s.ring vslots) := by
  rw [remove_server_present h]
  exact ⟨rfl, rfl, rfl, rfl, rfl⟩

/-- A circular successor for the full occupied list that survives into a
sublist is still the circular successor there. -/
theorem isCircSucc_subset {occ occ' : List Nat} {f sl : Nat}
    (hsub : ∀ k, k ∈ occ' → k ∈ occ) (hmem : sl ∈ occ')
    (h : IsCircSucc occ f sl) : IsCircSucc occ' f sl := by
  rcases h with ⟨_, hf, hmin⟩ | ⟨hall, _, hmin⟩
  · exact Or.inl ⟨hmem, hf, fun k hk hfk => hmin k (hsub k hk) hfk⟩
  · exact Or.inr ⟨fun k hk => hall k (hsub k hk), hmem,
      fun k hk => hmin k (hsub k hk)⟩

/-- Concrete states used by the witnesses: 8 slots, 2 virtual replicas per
backend, every replica hash equal to 0 so that slots are assigned by pure
linear probing.  `s0` holds backends "A" (slots 0, 1) and "B" (slots 2, 3). -/
def ops0 : List RingOp := [RingOp.add "A", RingOp.add "B"]

def s0 : ConsistentHash := runOps hv0 (initCH 8 2) ops0

/-- A saturated two-slot ring holding only backend "A". -/
def sFull : ConsistentHash := runOps hv0 (initCH 2 2) [RingOp.add "A"]

/-! ## Claim theorems -/

/-- C1: for every ring state, `get_server`'s lookup returns `None` when the
ring has no occupied slot; otherwise it returns the `BackendId` occupying the
smallest occupied slot `≥` the request fingerprint, or — when no occupied
slot is `≥` the fingerprint — the one occupying the smallest occupied slot
overall (wrap-around). -/
theorem C1_lookup_contract (hv : String → Nat → Nat) (s : ConsistentHash)
    (hreach : Reachable hv s) (f : Nat) :
    (update_sorted_keys s.slots s.ring = [] → lookupSlot s f = none) ∧
    (update_sorted_keys s.slots s.ring ≠ [] →
      ∃ sl server_id, IsCircSucc (update_sorted_keys s.slots s.ring) f sl ∧
        ringCell s.ring sl = some server_id ∧
        lookupSlot s f = some server_id) := by
  have h := reachable_inv hreach
  obtain ⟨hchar0, hchar1⟩ := lookupSlot_char s h.sk (inv_hserv h) f
  refine ⟨hchar0, ?_⟩
  intro hocc
  obtain ⟨sl, hsucc, heq⟩ := hchar1 hocc
  have hmem : sl ∈ update_sorted_keys s.slots s.ring := by
    rcases hsucc with ⟨hm, _, _⟩ | ⟨_, hm, _⟩ <;> exact hm
  obtain ⟨_, hnn⟩ := mem_update_sorted_keys.mp hmem
  cases hc : ringCell s.ring sl with
  | none => exact absurd hc hnn
  | some server_id =>
    exact ⟨sl, server_id, hsucc, hc, by rw [heq, hc]⟩

/-- Witness for C1 at the concrete reachable state `s0` and fingerprint 5. -/
theorem C1_lookup_contract_witness :
    (update_sorted_keys s0.slots s0.ring = [] → lookupSlot s0 5 = none) ∧
    (update_sorted_keys s0.slots s0.ring ≠ [] →
      ∃ sl server_id, IsCircSucc (update_sorted_keys s0.slots s0.ring) 5 sl ∧
        ringCell s0.ring sl = some server_id ∧
        lookupSlot s0 5 = some server_id) :=
  C1_lookup_contract hv0 s0 ⟨8, 2, ops0, by omega, rfl⟩ 5

/-- C2: after every sequence of `add_server`/`remove_server` operations from
the initial empty ring: (i) each registered slot-set matches the ring cells
exactly; (ii) every occupied slot belongs to exactly one registered backend;
(iii) `sorted_keys` is the sorted list of occupied slot positions. -/
theorem C2_invariants (hv : String → Nat → Nat) (s : ConsistentHash)
    (hreach : Reachable hv s) :
    (∀ server_id vs, (server_id, vs) ∈ s.servers →
      (∀ sl, sl ∈ vs → ringCell s.ring sl = some server_id) ∧
      (∀ sl, sl ∉ vs → ringCell s.ring sl ≠ some server_id)) ∧
    (∀ sl, ringCell s.ring sl ≠ none →
      ∃! server_id, ∃ vs, (server_id, vs) ∈ s.servers ∧ sl ∈ vs) ∧
    (s.sorted_keys.Pairwise (· < ·) ∧
      ∀ k, k ∈ s.sorted_keys ↔ ringCell s.ring k ≠ none) := by
  have h := reachable_inv hreach
  refine ⟨?_, ?_, ?_, ?_⟩
  · intro server_id vs hmem
    exact ⟨fun sl hsl => (h.cons server_id vs hmem sl).mpr hsl,
      fun sl hsl hcell => hsl ((h.cons server_id vs hmem sl).mp hcell)⟩
  · intro sl hne
    cases hc : ringCell s.ring sl with
    | none => exact absurd hc hne
    | some server_id =>
      obtain ⟨vs, hvs⟩ := h.owner sl server_id hc
      refine ⟨server_id, ⟨vs, hvs, (h.cons server_id vs hvs sl).mp hc⟩, ?_⟩
      rintro y ⟨vsy, hvsy, hsly⟩
      have hy := (h.cons y vsy hvsy sl).mpr hsly
      rw [hc] at hy
      exact (Option.some_injective _ hy).symm
  · rw [h.sk]
    exact update_sorted_keys_pairwise _ _
  · intro k
    rw [h.sk, mem_update_sorted_keys]
    constructor
    · rintro ⟨_, hnn⟩
      exact hnn
    · intro hnn
      refine ⟨?_, hnn⟩
      have hlt : k < s.ring.length := by
        by_contra hk
        exact hnn (ringCell_out (Nat.le_of_not_lt hk))
      rw [h.len] at hlt
      exact hlt

/-- Witness for C2 at the concrete reachable state `s0`. -/
theorem C2_invariants_witness :
    (∀ server_id vs, (server_id, vs) ∈ s0.servers →
      (∀ sl, sl ∈ vs → ringCell s0.ring sl = some server_id) ∧
      (∀ sl, sl ∉ vs → ringCell s0.ring sl ≠ some server_id)) ∧
    (∀ sl, ringCell s0.ring sl ≠ none →
      ∃! server_id, ∃ vs, (server_id, vs) ∈ s0.servers ∧ sl ∈ vs) ∧
    (s0.sorted_keys.Pairwise (· < ·) ∧
      ∀ k, k ∈ s0.sorted_keys ↔ ringCell s0.ring k ≠ none) :=
  C2_invariants hv0 s0 ⟨8, 2, ops0, by omega, rfl⟩

/-- C6: every backend ever present in the registry — in particular any backend
just inserted by a successful `add_server` — records exactly
`virtual_servers` pairwise-distinct slots, so `|S| ≤ K` always holds. -/
theorem C6_replica_count (hv : String → Nat → Nat) (s : ConsistentHash)
    (hreach : Reachable hv s) :
    ∀ server_id vs, (server_id, vs) ∈ s.servers →
      vs.length = s.virtual_servers ∧ vs.Nodup :=
  (reachable_inv hreach).replen

/-- Witness for C6 at the concrete reachable state `s0` and its registered
backend "A" with slot-set `[0, 1]`. -/
theorem C6_replica_count_witness :
    ([0, 1] : List Nat).length = s0.virtual_servers ∧
    ([0, 1] : List Nat).Nodup :=
  C6_replica_count hv0 s0 ⟨8, 2, ops0, by omega, rfl⟩ "A" [0, 1] (by decide)

theorem add_fields {hv : String → Nat → Nat} {s : ConsistentHash}
    {server_id : String} {ring2 : List (Option String)} {vslots : List Nat}
    (habs : List.lookup server_id s.servers = none)
    (hok : addLoop hv s.slots server_id (List.range s.virtual_servers)
      s.ring [] = .ok (ring2, vslots)) :
    (add_server hv s server_id).1.slots = s.slots ∧
    (add_server hv s server_id).1.virtual_servers = s.virtual_servers ∧
    (add_server hv s server_id).1.ring = ring2 ∧
    (add_server hv s server_id).1.servers
      = s.servers ++ [(server_id, vslots)] ∧
    (add_server hv s server_id).1.sorted_keys
      = update_sorted_keys s.slots ring2 := by
  rw [add_server_success habs hok]
  exact ⟨rfl, rfl, rfl, rfl, rfl⟩

/-- C3: for a backend not already present, `add_server` returns `False`
(RingFull) exactly when the ring has fewer than `virtual_servers` empty
slots, and in that case it rolls back completely, leaving ring, registry and
sorted index exactly as before. -/
theorem C3_ring_full (hv : String → Nat → Nat) (s : ConsistentHash)
    (hreach : Reachable hv s) (server_id : String)
    (habs : List.lookup server_id s.servers = none) :
    ((add_server hv s server_id).2 = false ↔
      emptyCount s.ring < s.virtual_servers) ∧
    ((add_server hv s server_id).2 = false →
      (add_server hv s server_id).1 = s) := by
  have h := reachable_inv hreach
  cases hres : addLoop hv s.slots server_id (List.range s.virtual_servers)
      s.ring [] with
  | error ring2 =>
    have hcap := addLoop_err_capacity hv s.slots server_id h.pos _ s.ring []
      h.len hres
    rw [List.length_range] at hcap
    rw [add_server_rollback habs h.pos h.len hres]
    exact ⟨⟨fun _ => hcap, fun _ => rfl⟩, fun _ => rfl⟩
  | ok p =>
    obtain ⟨ring2, vslots⟩ := p
    obtain ⟨claimed, hv1, hv2, hv3, hv4, hv5, hv6⟩ :=
      addLoop_ok_spec hv s.slots server_id h.pos _ s.ring [] h.len hres
    rw [List.nil_append] at hv1
    subst hv1
    have hK : s.virtual_servers ≤ emptyCount s.ring := by
      rw [← List.length_range s.virtual_servers, ← hv2]
      apply claimed_le_emptyCount vslots s.ring hv3
      intro c hc
      obtain ⟨hlt, hcell⟩ := hv4 c hc
      exact ⟨h.len ▸ hlt, hcell⟩
    rw [add_server_success habs hres]
    constructor
    · constructor
      · intro hfalse
        exact absurd hfalse (by simp)
      · intro hlt
        omega
    · intro hfalse
      exact absurd hfalse (by simp)

/-- Witness for C3 at the saturated state `sFull` and absent backend "B". -/
theorem C3_ring_full_witness :
    ((add_server hv0 sFull "B").2 = false ↔
      emptyCount sFull.ring < sFull.virtual_servers) ∧
    ((add_server hv0 sFull "B").2 = false →
      (add_server hv0 sFull "B").1 = sFull) :=
  C3_ring_full hv0 sFull ⟨2, 2, [RingOp.add "A"], by omega, rfl⟩ "B"
    (by decide)

/-- C4 fails as stated for an id that is already present: on `s0`, where "A"
is registered, `add_server "A"` is a rejected no-op but `remove_server "A"`
still deletes "A", so the pair of calls does not restore the pre-state. -/
theorem C4_counterexample :
    (remove_server (add_server hv0 s0 "A").1 "A").1 ≠ s0 := by
  decide

/-- C4 (amended): for every reachable ring state and every id **not already
present**, `add_server(id)` followed by `remove_server(id)` restores ring,
registry and sorted index exactly. -/
theorem C4_round_trip (hv : String → Nat → Nat) (s : ConsistentHash)
    (hreach : Reachable hv s) (server_id : String)
    (habs : List.lookup server_id s.servers = none) :
    (remove_server (add_server hv s server_id).1 server_id).1 = s := by
  have h := reachable_inv hreach
  cases hres : addLoop hv s.slots server_id (List.range s.virtual_servers)
      s.ring [] with
  | error ring2 =>
    rw [add_server_rollback habs h.pos h.len hres,
      remove_server_absent habs]
  | ok p =>
    obtain ⟨ring2, vslots⟩ := p
    obtain ⟨claimed, hv1, hv2, hv3, hv4, hv5, hv6⟩ :=
      addLoop_ok_spec hv s.slots server_id h.pos _ s.ring [] h.len hres
    rw [List.nil_append] at hv1
    subst hv1
    obtain ⟨a1, a2, a3, a4, a5⟩ := add_fields habs hres
    have hlook1 : List.lookup server_id
        (add_server hv s server_id).1.servers = some vslots := by
      rw [a4, lookup_append_of_none habs, lookup_cons_ite, if_pos rfl]
    obtain ⟨r1, r2, r3, r4, r5⟩ := remove_fields hlook1
    have hringeq : clearSlots ring2 vslots = s.ring := by
      apply ringCell_ext
      · rw [clearSlots_length]; exact hv6
      · intro i
        rw [ringCell_clearSlots, hv5 i]
        by_cases hi : i ∈ vslots
        · rw [if_pos hi, (hv4 i hi).2]
        · rw [if_neg hi, if_neg hi]
    apply ext_fields
    · rw [r1, a1]
    · rw [r2, a2]
    · rw [r3, a3, hringeq]
    · rw [r4, a4, List.filter_append]
      have h1 : List.filter (fun p => p.1 != server_id)
          [(server_id, vslots)] = [] := by simp
      have h2 : List.filter (fun p => p.1 != server_id) s.servers
          = s.servers := by
        apply List.filter_eq_self.mpr
        intro p hp
        exact bne_iff_ne.mpr (key_ne_of_lookup_none habs p hp)
      rw [h1, h2, List.append_nil]
    · rw [r5, a1, a3, hringeq, ← h.sk]

/-- Witness for the amended C4 at the concrete reachable state `s0` and the
absent id "C". -/
theorem C4_round_trip_witness :
    (remove_server (add_server hv0 s0 "C").1 "C").1 = s0 :=
  C4_round_trip hv0 s0 ⟨8, 2, ops0, by omega, rfl⟩ "C" (by decide)

/-- C5: removing backend `x` changes the routing decision only for
fingerprints previously mapped to `x`: any fingerprint `f` whose lookup
returned `y ≠ x` still looks up to `y` after `remove_server x`. -/
theorem C5_stability (hv : String → Nat → Nat) (s : ConsistentHash)
    (hreach : Reachable hv s) (x : String)
    (hx : (List.lookup x s.servers).isSome = true) (f : Nat) (y : String)
    (hy : lookupSlot s f = some y) (hyx : y ≠ x) :
    lookupSlot (remove_server s x).1 f = some y := by
  have h := reachable_inv hreach
  obtain ⟨hchar0, hchar1⟩ := lookupSlot_char s h.sk (inv_hserv h) f
  have hocc : update_sorted_keys s.slots s.ring ≠ [] := by
    intro hempty
    rw [hchar0 hempty] at hy
    exact Option.noConfusion hy
  obtain ⟨sl, hsucc, heq⟩ := hchar1 hocc
  have hcell : ringCell s.ring sl = some y := by rw [← heq]; exact hy
  cases hxl : List.lookup x s.servers with
  | none => rw [hxl] at hx; exact Bool.noConfusion hx
  | some vsx =>
  have hmemx : (x, vsx) ∈ s.servers := lookup_eq_some_mem hxl
  have hslnot : sl ∉ vsx := by
    intro hin
    have hxcell := (h.cons x vsx hmemx sl).mpr hin
    rw [hcell] at hxcell
    exact hyx (Option.some_injective _ hxcell)
  have hinv' : Inv (remove_server s x).1 := inv_remove h x
  obtain ⟨r1, r2, r3, r4, r5⟩ := remove_fields hxl
  obtain ⟨hchar0', hchar1'⟩ :=
    lookupSlot_char (remove_server s x).1 hinv'.sk (inv_hserv hinv') f
  have hmem' : sl ∈ update_sorted_keys (remove_server s x).1.slots
      (remove_server s x).1.ring := by
    rw [r1, r3]
    apply mem_update_sorted_keys.mpr
    constructor
    · rw [← h.len]
      exact lt_length_of_ringCell_some hcell
    · rw [ringCell_clearSlots, if_neg hslnot, hcell]
      intro hc
      exact Option.noConfusion hc
  have hocc' : update_sorted_keys (remove_server s x).1.slots
      (remove_server s x).1.ring ≠ [] := List.ne_nil_of_mem hmem'
  obtain ⟨sl', hsucc', heq'⟩ := hchar1' hocc'
  have hsub : ∀ k, k ∈ update_sorted_keys (remove_server s x).1.slots
      (remove_server s x).1.ring → k ∈ update_sorted_keys s.slots s.ring := by
    intro k hk
    rw [r1, r3] at hk
    obtain ⟨hk1, hk2⟩ := mem_update_sorted_keys.mp hk
    rw [ringCell_clearSlots] at hk2
    by_cases hkin : k ∈ vsx
    · rw [if_pos hkin] at hk2
      exact absurd rfl hk2
    · rw [if_neg hkin] at hk2
      exact mem_update_sorted_keys.mpr ⟨hk1, hk2⟩
  have hsucc_in : IsCircSucc (update_sorted_keys (remove_server s x).1.slots
      (remove_server s x).1.ring) f sl :=
    isCircSucc_subset hsub hmem' hsucc
  obtain rfl : sl' = sl := isCircSucc_unique hsucc' hsucc_in
  rw [heq', r3, ringCell_clearSlots, if_neg hslnot]
  exact hcell

/-- Witness for C5: on `s0`, fingerprint 2 routes to "B"; after removing
"A" it still routes to "B". -/
theorem C5_stability_witness :
    lookupSlot (remove_server s0 "A").1 2 = some "B" :=
  C5_stability hv0 s0 ⟨8, 2, ops0, by omega, rfl⟩ "A" (by decide) 2 "B"
    (by decide) (by decide)

/-- C7: adding an already-present backend returns `False` and changes
nothing (hence `add` twice equals `add` once), and removing an absent
backend returns `False` and changes nothing. -/
theorem C7_idempotence (hv : String → Nat → Nat) (s : ConsistentHash)
    (x : String) :
    ((List.lookup x s.servers).isSome = true →
      add_server hv s x = (s, false)) ∧
    (List.lookup x s.servers = none → remove_server s x = (s, false)) ∧
    (Reachable hv s →
      add_server hv (add_server hv s x).1 x
        = ((add_server hv s x).1, false)) := by
  refine ⟨add_server_present, remove_server_absent, ?_⟩
  intro hreach
  have h := reachable_inv hreach
  by_cases hp : (List.lookup x s.servers).isSome = true
  · rw [add_server_present hp, add_server_present hp]
  · have habs := lookup_isSome_false_iff hp
    cases hres : addLoop hv s.slots x (List.range s.virtual_servers)
        s.ring [] with
    | error ring2 =>
      rw [add_server_rollback habs h.pos h.len hres,
        add_server_rollback habs h.pos h.len hres]
    | ok p =>
      obtain ⟨ring2, vslots⟩ := p
      obtain ⟨a1, a2, a3, a4, a5⟩ := add_fields habs hres
      apply add_server_present
      rw [a4, lookup_append_of_none habs, lookup_cons_ite, if_pos rfl]
      rfl

/-- Witness for C7 at `s0`: "A" is present, "C" is absent. -/
theorem C7_idempotence_witness :
    add_server hv0 s0 "A" = (s0, false) ∧
    remove_server s0 "C" = (s0, false) ∧
    add_server hv0 (add_server hv0 s0 "C").1 "C"
      = ((add_server hv0 s0 "C").1, false) :=
  ⟨(C7_idempotence hv0 s0 "A").1 (by decide),
   (C7_idempotence hv0 s0 "C").2.1 (by decide),
   (C7_idempotence hv0 s0 "C").2.2 ⟨8, 2, ops0, by omega, rfl⟩⟩

/-! ## The admin and routing endpoints of load_balancer.py -/

/-- Load-balancer state touched by the admin endpoints: the hash ring and the
`server_id → container_name` dict `lb.servers` (load_balancer.py, line 17). -/
structure LBState where
  consistent_hash : ConsistentHash
  servers : List (String × String)
deriving DecidableEq

/-- Parsed JSON body of an admin request: the optional field `n` and the
`hostnames` field with default `[]` (lines 158–159 and 200–201).  A `none`
body models a request whose JSON is missing or has no `n`. -/
structure AdminRequest where
  n : Option Int
  hostnames : List String
deriving DecidableEq

/-- JSON payload of an admin response: either an error text or the fleet
report `{N, replicas}`. -/
inductive AdminMessage
  | text (msg : String)
  | fleet (N : Nat) (replicas : List String)
deriving DecidableEq

/-- An admin endpoint response: JSON message, status string, HTTP code. -/
structure LBResponse where
  message : AdminMessage
  status : String
  code : Nat
deriving DecidableEq

/-- Python dict assignment `d[k] = v`: replaces the value in place when the
key exists (keeping its position), appends otherwise. -/
def dictInsert (l : List (String × String)) (k v : String) :
    List (String × String) :=
  if (List.lookup k l).isSome then
    l.map fun p => if p.1 = k then (k, v) else p
  else l ++ [(k, v)]

/-- One iteration of the `/add` spawn loop (lines 169–177): if the container
spawn succeeds, insert the name into the registry dict and the ring. -/
def addOne (hv : String → Nat → Nat) (spawn : String → Bool)
    (st : LBState) (name : String) : LBState :=
  if spawn name then
    { consistent_hash := (add_server hv st.consistent_hash name).1
      servers := dictInsert st.servers name name }
  else st

/-- `add_servers`, the `POST /add` endpoint (lines 145–185).  `spawn`
abstracts `_spawn_server` (container I/O) and `gen i` the random name
generated at iteration `i`.  Validation precedes the locked mutation loop. -/
def add_servers (hv : String → Nat → Nat) (spawn : String → Bool)
    (gen : Nat → String) (st : LBState) (data : Option AdminRequest) :
    LBResponse × LBState :=
  match data with
  | none =>
    ({ message := .text "<Error> Invalid request format"
       status := "failure"
       code := 400 }, st)
  | some d =>
    match d.n with
    | none =>
      ({ message := .text "<Error> Invalid request format"
         status := "failure"
         code := 400 }, st)
    | some n =>
      if (d.hostnames.length : Int) > n then
        ({ message := .text
             "<Error> Length of hostname list is more than newly added instances"
           status := "failure"
           code := 400 }, st)
      else
        let st2 := (List.range n.toNat).foldl
          (fun acc i =>
            addOne hv spawn acc
              (if i < d.hostnames.length then d.hostnames.getD i "" else gen i))
          st
        ({ message := .fleet st2.servers.length (st2.servers.map Prod.fst)
           status := "successful"
           code := 200 }, st2)

/-- One iteration of the `/rm` removal loop (lines 223–227): if the name is
still registered, remove its container (external I/O, no state here), its
ring entries and its registry entry. -/
def removeOne (st : LBState) (name : String) : LBState :=
  if (List.lookup name st.servers).isSome then
    { consistent_hash := (remove_server st.consistent_hash name).1
      servers := st.servers.filter fun p => p.1 != name }
  else st

/-- The removal-set selection of `/rm` (lines 210–220): named hostnames that
exist, topped up by a random sample of the remaining backends, both capped by
`min`.  `sample l k` abstracts `random.sample(l, k)`. -/
def selectRemoval (sample : List String → Nat → List String)
    (st : LBState) (n : Int) (hostnames : List String) : List String :=
  if hostnames ≠ [] then
    let matched := hostnames.filter fun h => (List.lookup h st.servers).isSome
    let remaining := n - (matched.length : Int)
    if remaining > 0 then
      let available := (st.servers.map Prod.fst).filter
        fun name => !(matched.contains name)
      matched ++ sample available (min remaining.toNat available.length)
    else matched
  else sample (st.servers.map Prod.fst) (min n.toNat st.servers.length)

/-- `remove_servers`, the `DELETE /rm` endpoint (lines 187–235). -/
def remove_servers (sample : List String → Nat → List String)
    (st : LBState) (data : Option AdminRequest) : LBResponse × LBState :=
  match data with
  | none =>
    ({ message := .text "<Error> Invalid request format"
       status := "failure"
       code := 400 }, st)
  | some d =>
    match d.n with
    | none =>
      ({ message := .text "<Error> Invalid request format"
         status := "failure"
         code := 400 }, st)
    | some n =>
      if (d.hostnames.length : Int) > n then
        ({ message := .text
             "<Error> Length of hostname list is more than removable instances"
           status := "failure"
           code := 400 }, st)
      else
        let st2 := (selectRemoval sample st n d.hostnames).foldl removeOne st
        ({ message := .fleet st2.servers.length (st2.servers.map Prod.fst)
           status := "successful"
           code := 200 }, st2)

/-- Events of one `route_request` invocation (lines 237–266) in program
order. -/
inductive RouteEvent
  | acquireLock
  | ringLookup (found : Bool)
  | upstreamRequest
  | respond (code : Nat)
  | releaseLock
deriving DecidableEq

/-- Event trace of `route_request` (lines 237–266).  The `with lb.lock:`
block opened on line 245 encloses both the `get_server` call (line 246) and
the upstream `requests.get` proxy call (line 255); the lock is released when
the block is left.  `serverFound` says whether `get_server` returned a
backend, `proxyOk` whether the upstream call succeeded (`upstreamCode` is
then forwarded; otherwise the 400 error path of lines 261–266 runs). -/
def route_request_trace (serverFound proxyOk : Bool) (upstreamCode : Nat) :
    List RouteEvent :=
  [RouteEvent.acquireLock, RouteEvent.ringLookup serverFound] ++
  (if serverFound then
    [RouteEvent.upstreamRequest,
     RouteEvent.respond (if proxyOk then upstreamCode else 400)]
  else [RouteEvent.respond 500]) ++
  [RouteEvent.releaseLock]

/-- The contract of `random.sample(l, k)` for `k ≤ |l|`: `k` elements drawn
at distinct positions of `l` — so a duplicate-free result whenever the
population is duplicate-free. -/
def SampleOK (sample : List String → Nat → List String) : Prop :=
  ∀ l k, k ≤ l.length →
    (sample l k).length = k ∧ (sample l k) ⊆ l ∧
    (l.Nodup → (sample l k).Nodup)

/-- Deterministic sampler used in closed evaluations: the first `k`
elements. -/
def sample0 : List String → Nat → List String := fun l k => l.take k

theorem sampleOK_sample0 : SampleOK sample0 := by
  intro l k hk
  refine ⟨List.length_take_of_le hk, ?_, ?_⟩
  · exact fun x hx => (List.take_sublist k l).mem hx
  · intro hn
    exact List.Nodup.sublist (List.take_sublist k l) hn

/-- Concrete load-balancer state for witnesses: fleet {"A", "B"} with the
matching ring `s0`. -/
def stw : LBState := { consistent_hash := s0, servers := [("A", "A"), ("B", "B")] }

/-! ## Lemmas about the `/rm` removal loop -/

theorem removeOne_servers (st : LBState) (name : String) :
    (removeOne st name).servers = st.servers.filter fun p => p.1 != name := by
  rw [removeOne]
  by_cases hp : (List.lookup name st.servers).isSome = true
  · rw [if_pos hp]
  · rw [if_neg hp]
    symm
    apply List.filter_eq_self.mpr
    intro p hpmem
    exact bne_iff_ne.mpr
      (key_ne_of_lookup_none (lookup_isSome_false_iff hp) p hpmem)

theorem foldl_removeOne_servers :
    ∀ (names : List String) (st : LBState),
      (names.foldl removeOne st).servers
        = st.servers.filter fun p => !(names.contains p.1) := by
  intro names
  induction names with
  | nil =>
    intro st
    symm
    apply List.filter_eq_self.mpr
    intro p _
    rfl
  | cons a t ih =>
    intro st
    rw [List.foldl_cons, ih, removeOne_servers, List.filter_filter]
    apply List.filter_congr
    intro p _
    rw [List.contains_cons]
    cases hpa : (p.1 == a) <;> cases hpt : t.contains p.1 <;>
      simp [hpa, hpt, bne]

/-- A duplicate-free sub-collection at least as long as its duplicate-free
ambient list contains every ambient element. -/
theorem mem_of_subset_nodup_length {l sub : List String}
    (hsub : sub ⊆ l) (hnodup : sub.Nodup) (hlen : l.length ≤ sub.length) :
    ∀ x ∈ l, x ∈ sub := by
  have hsp : sub.Subperm l := List.subperm_of_subset hnodup hsub
  have hperm : sub.Perm l := hsp.perm_of_length_le hlen
  intro x hx
  exact hperm.mem_iff.mpr hx

theorem length_filter_contains {keys matched : List String}
    (hkn : keys.Nodup) (hmn : matched.Nodup) (hsub : matched ⊆ keys) :
    (keys.filter fun x => matched.contains x).length = matched.length := by
  have h1 : (keys.filter fun x => matched.contains x).Nodup := hkn.filter _
  have hmem : ∀ x, x ∈ keys.filter (fun x => matched.contains x) ↔
      x ∈ matched := by
    intro x
    rw [List.mem_filter]
    constructor
    · rintro ⟨_, hc⟩
      exact List.elem_iff.mp hc
    · intro hm
      exact ⟨hsub hm, List.elem_iff.mpr hm⟩
  have ha := List.subperm_of_subset h1 fun x hx => (hmem x).mp hx
  have hb := List.subperm_of_subset hmn fun x hx => (hmem x).mpr hx
  exact Nat.le_antisymm ha.length_le hb.length_le

theorem length_filter_not_contains {keys matched : List String}
    (hkn : keys.Nodup) (hmn : matched.Nodup) (hsub : matched ⊆ keys) :
    (keys.filter fun x => !(matched.contains x)).length
      = keys.length - matched.length := by
  have hperm := List.filter_append_perm (fun x => matched.contains x) keys
  have hlen := hperm.length_eq
  rw [List.length_append, length_filter_contains hkn hmn hsub] at hlen
  omega

/-- Under the `random.sample` contract, a valid `/rm` request with distinct
hostnames and `n` at least the fleet size selects every registered key. -/
theorem selectRemoval_covers (sample : List String → Nat → List String)
    (st : LBState) (n : Int) (hostnames : List String)
    (hsample : SampleOK sample)
    (hkeys : (st.servers.map Prod.fst).Nodup)
    (hhost : hostnames.Nodup)
    (hn : (st.servers.length : Int) ≤ n) :
    ∀ k, k ∈ st.servers.map Prod.fst →
      k ∈ selectRemoval sample st n hostnames := by
  intro k hk
  have hkeyslen : (st.servers.map Prod.fst).length = st.servers.length :=
    List.length_map _ _
  rw [selectRemoval]
  by_cases hne : hostnames ≠ []
  · rw [if_pos hne]
    simp only []
    have hmn : (hostnames.filter
        fun h => (List.lookup h st.servers).isSome).Nodup := hhost.filter _
    have hmsub : (hostnames.filter
        fun h => (List.lookup h st.servers).isSome) ⊆
        st.servers.map Prod.fst := by
      intro x hx
      rw [List.mem_filter] at hx
      exact lookup_isSome_iff.mp hx.2
    have hmlen : (hostnames.filter
        fun h => (List.lookup h st.servers).isSome).length
        ≤ st.servers.length := by
      have := (List.subperm_of_subset hmn hmsub).length_le
      omega
    by_cases hrem : n - ((hostnames.filter
        fun h => (List.lookup h st.servers).isSome).length : Int) > 0
    · rw [if_pos hrem]
      by_cases hkm : k ∈ hostnames.filter
          fun h => (List.lookup h st.servers).isSome
      · exact List.mem_append.mpr (Or.inl hkm)
      · have havlen : ((st.servers.map Prod.fst).filter
            fun name => !((hostnames.filter
              fun h => (List.lookup h st.servers).isSome).contains name)).length
            = st.servers.length - (hostnames.filter
              fun h => (List.lookup h st.servers).isSome).length := by
          rw [length_filter_not_contains hkeys hmn hmsub, hkeyslen]
        have hmin : min (n - ((hostnames.filter
            fun h => (List.lookup h st.servers).isSome).length : Int)).toNat
            ((st.servers.map Prod.fst).filter
              fun name => !((hostnames.filter
                fun h => (List.lookup h st.servers).isSome).contains name)).length
            = ((st.servers.map Prod.fst).filter
              fun name => !((hostnames.filter
                fun h => (List.lookup h st.servers).isSome).contains name)).length := by
          apply Nat.min_eq_right
          omega
        rw [hmin]
        apply List.mem_append.mpr
        right
        have havnodup : ((st.servers.map Prod.fst).filter
            fun name => !((hostnames.filter
              fun h => (List.lookup h st.servers).isSome).contains name)).Nodup :=
          hkeys.filter _
        obtain ⟨hslen, hssub, hsnodup⟩ := hsample _ _ (Nat.le_refl
          ((st.servers.map Prod.fst).filter
            fun name => !((hostnames.filter
              fun h => (List.lookup h st.servers).isSome).contains name)).length)
        apply mem_of_subset_nodup_length hssub (hsnodup havnodup)
          (Nat.le_of_eq hslen.symm)
        apply List.mem_filter.mpr
        refine ⟨hk, ?_⟩
        cases hc : (hostnames.filter
            fun h => (List.lookup h st.servers).isSome).contains k with
        | false => rfl
        | true => exact absurd (List.elem_iff.mp hc) hkm
    · rw [if_neg hrem]
      apply mem_of_subset_nodup_length hmsub hmn ?_ k hk
      omega
  · rw [if_neg hne]
    have hmin : min n.toNat st.servers.length = st.servers.length := by
      apply Nat.min_eq_right
      omega
    rw [hmin]
    obtain ⟨hslen, hssub, hsnodup⟩ := hsample (st.servers.map Prod.fst)
      st.servers.length (by omega)
    exact mem_of_subset_nodup_length hssub (hsnodup hkeys)
      (by omega) k hk

/-- C8: a `POST /add` body whose hostname list is longer than `n` yields
HTTP 400 with status "failure" and the `<Error>`-prefixed message naming the
hostname list, and the registry and ring are left unchanged — validation
precedes any mutation. -/
theorem C8_add_validation (hv : String → Nat → Nat) (spawn : String → Bool)
    (gen : Nat → String) (st : LBState) (n : Int) (hostnames : List String)
    (hlen : (hostnames.length : Int) > n) :
    add_servers hv spawn gen st (some { n := some n, hostnames := hostnames })
      = ({ message := .text
             "<Error> Length of hostname list is more than newly added instances"
           status := "failure"
           code := 400 }, st) ∧
    "<Error> Length of hostname list is more than newly added instances"
      = "<Error>"
        ++ " Length of hostname list is more than newly added instances" ∧
    "<Error> Length of hostname list is more than newly added instances"
      = "<Error> Length of " ++ "hostname"
        ++ " list is more than newly added instances" := by
  refine ⟨?_, rfl, rfl⟩
  rw [add_servers]
  simp only []
  rw [if_pos hlen]

/-- Witness for C8: two hostnames against `n = 1` on the concrete state
`stw`. -/
theorem C8_add_validation_witness :
    add_servers hv0 (fun _ => true) (fun _ => "G") stw
        (some { n := some 1, hostnames := ["A", "B"] })
      = ({ message := .text
             "<Error> Length of hostname list is more than newly added instances"
           status := "failure"
           code := 400 }, stw) ∧
    "<Error> Length of hostname list is more than newly added instances"
      = "<Error>"
        ++ " Length of hostname list is more than newly added instances" ∧
    "<Error> Length of hostname list is more than newly added instances"
      = "<Error> Length of " ++ "hostname"
        ++ " list is more than newly added instances" :=
  C8_add_validation hv0 (fun _ => true) (fun _ => "G") stw 1 ["A", "B"]
    (by decide)

/-- C9 is refuted by the code: in the event trace of a routed GET that found
a backend, the upstream proxy request happens strictly before the lock
release — `route_request` issues `requests.get` inside the `with lb.lock:`
block, so the fleet lock IS held across the upstream call. -/
theorem C9_lock_held_across_proxy :
    (route_request_trace true true 200).indexOf RouteEvent.upstreamRequest
      < (route_request_trace true true 200).indexOf RouteEvent.releaseLock := by
  decide

/-- C10 as stated fails for a valid body with a duplicated hostname: with
fleet {"A", "B"}, `n = 2` (= fleet size) and `hostnames = ["A", "A"]`
(valid: the list length 2 does not exceed `n`), the matched list counts "A"
twice, so no random fill happens and "B" survives: the reply reports
`N = 1`, not 0. -/
theorem C10_counterexample :
    (remove_servers sample0 stw
        (some { n := some 2, hostnames := ["A", "A"] })).2.servers
      = [("B", "B")] ∧
    (remove_servers sample0 stw
        (some { n := some 2, hostnames := ["A", "A"] })).1.message
      = AdminMessage.fleet 1 ["B"] := by
  decide

/-- C10 (amended): for every valid `/rm` body with **pairwise-distinct**
hostnames and `n` at least the current fleet size, the endpoint removes every
registered backend and replies 200 / "successful" with `N = 0`; the `min`
caps mean random sampling is only ever requested within the population, so
the `random.sample` contract (`SampleOK`) is never violated. -/
theorem C10_remove_all (sample : List String → Nat → List String)
    (st : LBState) (n : Int) (hostnames : List String)
    (hsample : SampleOK sample)
    (hkeys : (st.servers.map Prod.fst).Nodup)
    (hhost : hostnames.Nodup)
    (hvalid : (hostnames.length : Int) ≤ n)
    (hn : (st.servers.length : Int) ≤ n) :
    (remove_servers sample st
        (some { n := some n, hostnames := hostnames })).2.servers = [] ∧
    (remove_servers sample st
        (some { n := some n, hostnames := hostnames })).1
      = { message := .fleet 0 []
          status := "successful"
          code := 200 } := by
  have hcover := selectRemoval_covers sample st n hostnames hsample hkeys
    hhost hn
  have hst2 : ((selectRemoval sample st n hostnames).foldl
      removeOne st).servers = [] := by
    rw [foldl_removeOne_servers]
    apply List.filter_eq_nil_iff.mpr
    intro p hp
    have hmem : p.1 ∈ selectRemoval sample st n hostnames :=
      hcover p.1 (List.mem_map_of_mem Prod.fst hp)
    intro hcontr
    have htrue : (selectRemoval sample st n hostnames).contains p.1 = true :=
      List.elem_iff.mpr hmem
    rw [htrue] at hcontr
    exact Bool.noConfusion hcontr
  have hnot : ¬((hostnames.length : Int) > n) := not_lt.mpr hvalid
  constructor
  · rw [remove_servers]
    simp only []
    rw [if_neg hnot]
    exact hst2
  · rw [remove_servers]
    simp only []
    rw [if_neg hnot]
    simp only []
    rw [hst2]
    rfl

/-- Witness for the amended C10: empty hostname list, `n = 5`, fleet of
two backends. -/
theorem C10_remove_all_witness :
    (remove_servers sample0 stw
        (some { n := some 5, hostnames := [] })).2.servers = [] ∧
    (remove_servers sample0 stw
        (some { n := some 5, hostnames := [] })).1
      = { message := .fleet 0 []
          status := "successful"
          code := 200 } :=
  C10_remove_all sample0 stw 5 [] sampleOK_sample0 (by decide) (by decide)
    (by decide) (by decide)

end LoadBalancerProof
